import Mathlib

/-!
Shallow embedding of the WhenFS core (a FUSE filesystem backed by a
calendar event store) and proofs about its operations.

The embedding follows the Rust sources:
- `src/object.rs` : the file-system object model,
- `src/cache.rs`  : the inode cache (`WhenFSCache`),
- `src/store.rs`  : the calendar block store (`CalStore`) and chunker,
- `src/fs.rs`     : the FUSE operation layer (`WhenFS`).

Machine integers are modelled as `Nat` (with explicit `% 2 ^ w` where a
Rust cast truncates), fallible paths return `Except`/`Option`, and a
Rust panic is modelled as `Option.none` of the operation's result.
Remote-store effects (store/retrieve/update results) are passed in as
explicit `Except` arguments, since the cache is generic over the store.
-/

namespace WhenFS

/-- Linux errno values used by the filesystem layer. -/
def EPERM : Nat := 1

/-- errno: no such file or directory. -/
def ENOENT : Nat := 2

/-- errno: I/O error (catch-all for cache/store failures). -/
def EIO : Nat := 5

/-- errno: permission denied. -/
def EACCES : Nat := 13

/-- errno: not a directory. -/
def ENOTDIR : Nat := 20

/-- errno: is a directory. -/
def EISDIR : Nat := 21

/-- errno: invalid argument. -/
def EINVAL : Nat := 22

/-- errno: function not implemented. -/
def ENOSYS : Nat := 38

/-- access(2) mask: existence test. -/
def F_OK : Nat := 0

/-- access(2) mask: execute permission. -/
def X_OK : Nat := 1

/-- access(2) mask: write permission. -/
def W_OK : Nat := 2

/-- access(2) mask: read permission. -/
def R_OK : Nat := 4

/-- Association-list lookup, first match wins (models a map lookup). -/
def lookupA {κ β : Type} [DecidableEq κ] : List (κ × β) → κ → Option β
  | [], _ => none
  | (k, v) :: rest, key => if k = key then some v else lookupA rest key

/-- Association-list insert with overwrite (models a map insert). -/
def insertA {κ β : Type} [DecidableEq κ] : List (κ × β) → κ → β → List (κ × β)
  | [], key, val => [(key, val)]
  | (k, v) :: rest, key, val =>
    if k = key then (key, val) :: rest else (k, v) :: insertA rest key val

theorem lookupA_insertA_self {κ β : Type} [DecidableEq κ]
    (l : List (κ × β)) (k : κ) (v : β) : lookupA (insertA l k v) k = some v := by
  induction l with
  | nil => simp [insertA, lookupA]
  | cons p rest ih =>
    by_cases h : p.1 = k
    · simp [insertA, h, lookupA]
    · simp [insertA, h, lookupA, ih]

/-- File kinds supported by WhenFS (`fuser::FileType`, restricted to the
two variants the code constructs). -/
inductive FileKind
  | regularFile
  | directory
deriving DecidableEq

/-- Attribute block of a filesystem object (`fuser::FileAttr`). All
machine integers are modelled as `Nat`; timestamps are abstract `Nat`
instants. -/
structure FileAttr where
  ino : Nat
  size : Nat
  blocks : Nat
  atime : Nat
  mtime : Nat
  ctime : Nat
  crtime : Nat
  kind : FileKind
  perm : Nat
  nlink : Nat
  uid : Nat
  gid : Nat
  rdev : Nat
  blksize : Nat
  flags : Nat
deriving DecidableEq

/-- Directory entry (`DirectoryEntry` in `object.rs`). -/
structure DirectoryEntry where
  ino : Nat
  file_type : FileKind
  name : String
deriving DecidableEq

/-- Regular file object (`FileObject` in `object.rs`). -/
structure FileObject where
  attr : FileAttr
  name : String
  data : List UInt8
deriving DecidableEq

/-- Directory object (`DirectoryObject` in `object.rs`); the `HashSet`
of entries is modelled as a list. -/
structure DirectoryObject where
  attr : FileAttr
  entries : List DirectoryEntry
  name : String
deriving DecidableEq

/-- Tagged union of file and directory (`FileSystemObject`). -/
inductive FSObj
  | file (f : FileObject)
  | dir (d : DirectoryObject)
deriving DecidableEq

/-- Projection of the attribute block (`FileSystemObject::get_attr`). -/
def FSObj.get_attr : FSObj → FileAttr
  | .file f => f.attr
  | .dir d => d.attr

/-- Replacement of the attribute block (`*handle.mut_attr() = attr`). -/
def FSObj.set_attr : FSObj → FileAttr → FSObj
  | .file f, a => .file { f with attr := a }
  | .dir d, a => .dir { d with attr := a }

/-- Content projection used to observe stored file data in theorems. -/
def FSObj.dataOf : FSObj → List UInt8
  | .file f => f.data
  | .dir _ => []

/-- State of `WhenFSCache` (`cache.rs`): the inode-to-chain map, the
chain-to-object table, the inode counter and the root chain id. `Id`
is the store's chain-entry type (`TStore::Entry`). -/
structure CacheSt (Id : Type) where
  inoToId : List (Nat × Id)
  idToObj : List (Id × FSObj)
  inodeCount : Nat
  rootEvent : Id
deriving DecidableEq

/-- `WhenFSCache::new_inode`: atomic fetch-and-increment of the inode
counter; returns the pre-increment value. -/
def new_inode {Id : Type} (st : CacheSt Id) : Nat × CacheSt Id :=
  (st.inodeCount, { st with inodeCount := st.inodeCount + 1 })

/-- Value returned by the `n`-th successive `new_inode` call (0-based). -/
def nth_new_inode {Id : Type} (st : CacheSt Id) : Nat → Nat
  | 0 => (new_inode st).1
  | n + 1 => nth_new_inode (new_inode st).2 n

theorem nth_new_inode_eq {Id : Type} (st : CacheSt Id) (n : Nat) :
    nth_new_inode st n = st.inodeCount + n := by
  induction n generalizing st with
  | zero => rfl
  | succ n ih => simp [nth_new_inode, ih, new_inode, Nat.add_assoc, Nat.add_comm 1 n]

/-- Maximum of the keys of an inode mapping
(`ino_to_id.iter().map(key).max()` in `WhenFSCache::recover`). -/
def maxKey {Id : Type} : List (Nat × Id) → Option Nat
  | [] => none
  | (k, _) :: rest =>
    some (match maxKey rest with
          | none => k
          | some m => Nat.max k m)

theorem le_of_mem_maxKey {Id : Type} (m : List (Nat × Id)) :
    ∀ mx : Nat, maxKey m = some mx → ∀ p ∈ m, p.1 ≤ mx := by
  induction m with
  | nil => intro mx hmx; simp [maxKey] at hmx
  | cons q rest ih =>
    intro mx hmx p hp
    rcases List.mem_cons.mp hp with hp | hp
    · subst hp
      cases hq : maxKey rest with
      | none => simp [maxKey, hq] at hmx; omega
      | some r =>
        simp [maxKey, hq] at hmx
        subst hmx
        exact Nat.le_max_left _ _
    · cases hq : maxKey rest with
      | none =>
        rcases rest with _ | ⟨r, rest⟩
        · cases hp
        · simp [maxKey] at hq
      | some r =>
        have hr := ih r hq p hp
        simp [maxKey, hq] at hmx
        subst hmx
        exact Nat.le_trans hr (Nat.le_max_right _ _)

/-- `WhenFSCache::recover`: given the inode mapping decoded from the
root chain and the root id, seed the inode counter with
`max(keys) + 1`. The `.max().expect(..)` call panics on an empty
mapping (message: Couldnt find inode count); the panic is modelled as
`none`. -/
def recover {Id : Type} (mapping : List (Nat × Id)) (rootId : Id) :
    Option (CacheSt Id) :=
  match maxKey mapping with
  | none => none
  | some m =>
    some { inoToId := mapping, idToObj := [], inodeCount := m + 1, rootEvent := rootId }

/-- `Cache::get` for `WhenFSCache`: look up the chain id, then the
materialized object; on a miss, retrieve through the store (result
supplied as `retrieveRes`) and publish it in the object table. -/
def cache_get {Id ε : Type} [DecidableEq Id] (retrieveRes : Except ε FSObj)
    (st : CacheSt Id) (ino : Nat) : CacheSt Id × Except ε (Option FSObj) :=
  match lookupA st.inoToId ino with
  | none => (st, .ok none)
  | some id =>
    match lookupA st.idToObj id with
    | some obj => (st, .ok (some obj))
    | none =>
      match retrieveRes with
      | .error e => (st, .error e)
      | .ok obj => ({ st with idToObj := insertA st.idToObj id obj }, .ok (some obj))

/-- `Cache::insert` for `WhenFSCache`: store the object (result
`storeRes`), update both in-memory maps, then rewrite the root chain
(`store.update`, result `updateRes`) and replace `root_event`. An
error return leaves the already-performed map updates in place. -/
def cache_insert {Id ε : Type} [DecidableEq Id] (storeRes updateRes : Except ε Id)
    (st : CacheSt Id) (ino : Nat) (item : FSObj) : CacheSt Id × Except ε Nat :=
  match storeRes with
  | .error e => (st, .error e)
  | .ok id =>
    let st1 := { st with inoToId := insertA st.inoToId ino id,
                         idToObj := insertA st.idToObj id item }
    match updateRes with
    | .error e => (st1, .error e)
    | .ok newBlock => ({ st1 with rootEvent := newBlock }, .ok ino)

/-- `WhenFS::check_access` (`fs.rs`). The Rust `access_mask` is an
`i32` that is only ever a combination of the non-negative `*_OK` bits,
so it is modelled as `Nat`; `a - (a &&& b)` is exact since
`a &&& b ≤ a`. The `uid == 0` branch is the literal xor from the
source: `(access_mask & X_OK == 0) != (file_mode & 0o111 != 0)`. -/
def check_access (file_uid file_gid : Nat) (file_mode : Nat)
    (uid gid : Nat) (access_mask : Nat) : Bool :=
  if access_mask = F_OK then true
  else if uid = 0 then
    ((access_mask &&& X_OK) == 0) != ((file_mode &&& 0o111) != 0)
  else
    let rest :=
      if uid = file_uid then access_mask - (access_mask &&& (file_mode >>> 6))
      else if gid = file_gid then access_mask - (access_mask &&& (file_mode >>> 3))
      else access_mask - (access_mask &&& file_mode)
    rest == 0

/-- Bit 62 of a file handle: the write capability
(`WhenFS::FILE_HANDLE_WRITE_BIT`). -/
def FILE_HANDLE_WRITE_BIT : Nat := 2 ^ 62

/-- `WhenFS::check_file_handle_write`. -/
def check_file_handle_write (fh : Nat) : Bool :=
  (fh &&& FILE_HANDLE_WRITE_BIT) != 0

/-- Rust `slice::chunks(n + 1)`: contiguous chunks of `n + 1` elements,
the last one possibly shorter. Defined only for positive chunk sizes
(`chunks(0)` panics in Rust); the size is passed as `n + 1`. -/
def chunksPos {α : Type} (n : Nat) : List α → List (List α)
  | [] => []
  | a :: as => (a :: as.take n) :: chunksPos n (as.drop n)
termination_by l => l.length
decreasing_by simp; omega

theorem chunksPos_nil {α : Type} (n : Nat) : chunksPos n ([] : List α) = [] := by
  rw [chunksPos]

theorem chunksPos_cons {α : Type} (n : Nat) (a : α) (as : List α) :
    chunksPos n (a :: as) = (a :: as.take n) :: chunksPos n (as.drop n) := by
  rw [chunksPos]

/-- Rust `Vec::resize(n, 0)`: truncate or pad with zero bytes. -/
def resizeList (l : List UInt8) (n : Nat) : List UInt8 :=
  if n ≤ l.length then l.take n else l ++ List.replicate (n - l.length) 0

/-- Rust `dst[lo .. lo + src.len()].copy_from_slice(src)`: `none`
models the panic when the range exceeds the destination. -/
def writeRange (dst : List UInt8) (lo : Nat) (src : List UInt8) :
    Option (List UInt8) :=
  if lo + src.length ≤ dst.length then
    some (dst.take lo ++ src ++ dst.drop (lo + src.length))
  else none

/-- Rust slice indexing `l[lo .. hi]`: `none` models the panic when
`lo > hi` or `hi > l.length`. -/
def sliceRange (l : List UInt8) (lo hi : Nat) : Option (List UInt8) :=
  if lo ≤ hi ∧ hi ≤ l.length then some ((l.drop lo).take (hi - lo)) else none

/-- Byte sequence of a string (`str::as_bytes`); the welcome text is
pure ASCII, for which this is the exact UTF-8 byte sequence. -/
def strBytes (s : String) : List UInt8 :=
  s.data.map (fun c => UInt8.ofNat c.toNat)

/-- `WhenFS::get_recovery_file_contents`: the welcome / recovery text,
with the calendar id and root event id interpolated. -/
def welcomeContents (calId rootId : String) : String :=
  "Welcome to WhenFS!\n" ++
  "If you\x27re reading this, then you\x27ve successfully turned your Google calendar into a FUSE filesystem.\n" ++
  "To recover this filesystem, run WhenFS with the following arguments.\n" ++
  "The --root-event ID in this file changes after write operations, so don\x27t copy these arguments too early or some of your data may become inaccessible.\n" ++
  "\n" ++
  "--calendar " ++ calId ++ "\n" ++
  "--root-event " ++ rootId ++ "\n" ++
  "\n" ++
  "If you poke around enough, you\x27ll likely run into bugs, edge cases, and completely unimplemented features.\n" ++
  "There are no plans to fix these, but contributions are more than welcome.\n" ++
  "Note that contributors are subject to a contributor license agreement (\"CLA\"), which requires that all\n" ++
  "contributions be accompanied by a lighthearted meme that makes the author chuckle slightly, but not too much.\n"

/-- Reply of the FUSE `read` operation. -/
inductive ReadReply
  | data (bytes : List UInt8)
  | error (errno : Nat)
deriving DecidableEq

/-- Reply of the FUSE `write` operation. -/
inductive WriteReply
  | written (n : Nat)
  | error (errno : Nat)
deriving DecidableEq

/-- Reply of the FUSE `setattr` operation. -/
inductive SetattrReply
  | attr (a : FileAttr)
  | error (errno : Nat)
deriving DecidableEq

/-- `WhenFS::read` (`fs.rs`). Inode `2` (`FUSE_ROOT_ID + 1`) serves the
freshly generated welcome text for the current recovery pair
`(calId, rootId)`; other inodes resolve through the cache, directories
answer `EISDIR`, and files reply the slice
`[offset, offset + size)` of the data buffer clipped to its length.
`none` models the slice-bounds panic. -/
def read {Id ε : Type} [DecidableEq Id] (retrieveRes : Except ε FSObj)
    (st : CacheSt Id) (ino : Nat) (offset : Int) (size : Nat)
    (calId rootId : String) : CacheSt Id × Option ReadReply :=
  if offset < 0 then (st, some (.error EINVAL))
  else if ino = 2 then
    let content := strBytes (welcomeContents calId rootId)
    let lower := offset.toNat
    let upper := min (lower + size) content.length
    match sliceRange content lower upper with
    | none => (st, none)
    | some bytes => (st, some (.data bytes))
  else
    match cache_get retrieveRes st ino with
    | (st1, .error _) => (st1, some (.error EIO))
    | (st1, .ok none) => (st1, some (.error ENOENT))
    | (st1, .ok (some (.dir _))) => (st1, some (.error EISDIR))
    | (st1, .ok (some (.file f))) =>
      let lower := offset.toNat
      let upper := min (lower + size) f.data.length
      match sliceRange f.data lower upper with
      | none => (st1, none)
      | some bytes => (st1, some (.data bytes))

/-- `WhenFS::write` (`fs.rs`). Negative offsets answer `EINVAL`; a
handle without the write bit answers `EACCES`; directories answer
`EISDIR`. Otherwise the three timestamps are set to `now` and, when
`offset + data.len()` exceeds the old `size` attribute, the buffer is
resized to `size + data.len()` (the literal source expression) before
the span is overwritten; the new object is re-inserted through the
cache. `none` models the `copy_from_slice` panic. -/
def write {Id ε : Type} [DecidableEq Id] (retrieveRes : Except ε FSObj)
    (storeRes updateRes : Except ε Id) (st : CacheSt Id) (ino fh : Nat)
    (offset : Int) (data : List UInt8) (now : Nat) :
    CacheSt Id × Option WriteReply :=
  if offset < 0 then (st, some (.error EINVAL))
  else if ¬ check_file_handle_write fh then (st, some (.error EACCES))
  else
    let offsetN := offset.toNat
    match cache_get retrieveRes st ino with
    | (st1, .error _) => (st1, some (.error EIO))
    | (st1, .ok none) => (st1, some (.error ENOENT))
    | (st1, .ok (some (.dir _))) => (st1, some (.error EISDIR))
    | (st1, .ok (some (.file f))) =>
      let attr1 := { f.attr with ctime := now, atime := now, mtime := now }
      let oldLen := f.attr.size
      let resized :=
        if data.length + offsetN > oldLen then
          let newLen := attr1.size + data.length
          (resizeList f.data newLen, { attr1 with size := newLen })
        else (f.data, attr1)
      match writeRange resized.1 offsetN data with
      | none => (st1, none)
      | some newData =>
        let newObj := FSObj.file { f with attr := resized.2, data := newData }
        match cache_insert storeRes updateRes st1 resized.2.ino newObj with
        | (st2, .error _) => (st2, some (.error EIO))
        | (st2, .ok _) => (st2, some (.written (data.length % 2 ^ 32)))

/-- `WhenFS::write_inode` (`fs.rs`): fetch the object, replace its
attribute block, re-insert through the cache; an insert error is only
logged, so the function still returns success. -/
def write_inode {Id ε : Type} [DecidableEq Id] (retrieveRes : Except ε FSObj)
    (storeRes updateRes : Except ε Id) (st : CacheSt Id) (ino : Nat)
    (attr : FileAttr) : CacheSt Id × Except Nat Unit :=
  match cache_get retrieveRes st ino with
  | (st1, .error _) => (st1, .error EIO)
  | (st1, .ok none) => (st1, .error ENOENT)
  | (st1, .ok (some obj)) =>
    let newObj := obj.set_attr attr
    ((cache_insert storeRes updateRes st1 ino newObj).1, .ok ())

/-- `WhenFS::setattr` (`fs.rs`): in priority order chmod (`mode` set),
chown (`uid` or `gid` set), truncate (`size` set, answered `ENOSYS`),
else echo the current attributes. The target object is fetched through
the cache before any branch is examined. -/
def setattr {Id ε : Type} [DecidableEq Id] (retrieveRes : Except ε FSObj)
    (storeRes updateRes : Except ε Id) (st : CacheSt Id)
    (reqUid reqGid : Nat) (ino : Nat) (mode uid gid size : Option Nat)
    (now : Nat) : CacheSt Id × SetattrReply :=
  match cache_get retrieveRes st ino with
  | (st1, .error _) => (st1, .error EIO)
  | (st1, .ok none) => (st1, .error ENOENT)
  | (st1, .ok (some obj)) =>
    let attrs := obj.get_attr
    match mode with
    | some m =>
      if reqUid ≠ 0 ∧ reqUid ≠ attrs.uid then (st1, .error EPERM)
      else
        let perm :=
          if reqUid ≠ 0 ∧ reqGid ≠ attrs.gid then
            (m &&& (4294967295 ^^^ 0o2000)) % 2 ^ 16
          else m % 2 ^ 16
        let attrs1 := { attrs with perm := perm, ctime := now }
        match write_inode retrieveRes storeRes updateRes st1 attrs1.ino attrs1 with
        | (st2, .error e) => (st2, .error e)
        | (st2, .ok _) => (st2, .attr attrs1)
    | none =>
      if uid.isSome ∨ gid.isSome then
        if gid.isSome ∧ reqUid ≠ 0 then (st1, .error EPERM)
        else if (match uid with
                 | some u => decide (reqUid ≠ 0 ∧ ¬(u = attrs.uid ∧ reqUid = attrs.uid))
                 | none => false) then (st1, .error EPERM)
        else if gid.isSome ∧ reqUid ≠ 0 ∧ reqUid ≠ attrs.uid then (st1, .error EPERM)
        else if attrs.perm &&& 0o111 ≠ 0 then (st1, .error ENOSYS)
        else
          let attrs1 :=
            match uid with
            | some u => { attrs with uid := u, perm := attrs.perm &&& (65535 ^^^ 0o4000) }
            | none => attrs
          let attrs2 :=
            match gid with
            | some g =>
              let perm2 := if reqUid ≠ 0 then attrs1.perm &&& (65535 ^^^ 0o2000)
                           else attrs1.perm
              { attrs1 with gid := g, perm := perm2 }
            | none => attrs1
          let attrs3 := { attrs2 with ctime := now }
          match write_inode retrieveRes storeRes updateRes st1 attrs3.ino attrs3 with
          | (st2, .error e) => (st2, .error e)
          | (st2, .ok _) => (st2, .attr attrs3)
      else
        match size with
        | some _ => (st1, .error ENOSYS)
        | none => (st1, .attr attrs)

/-- `WhenFS::mkdir`: deliberately unimplemented, replies `ENOSYS`. -/
def mkdir {Id : Type} (st : CacheSt Id) (_parent : Nat) (_name : String)
    (_mode _umask : Nat) : CacheSt Id × Nat := (st, ENOSYS)

/-- `WhenFS::unlink`: deliberately unimplemented, replies `ENOSYS`. -/
def unlink {Id : Type} (st : CacheSt Id) (_parent : Nat) (_name : String) :
    CacheSt Id × Nat := (st, ENOSYS)

/-- `WhenFS::rmdir`: deliberately unimplemented, replies `ENOSYS`. -/
def rmdir {Id : Type} (st : CacheSt Id) (_parent : Nat) (_name : String) :
    CacheSt Id × Nat := (st, ENOSYS)

/-- `WhenFS::rename`: deliberately unimplemented, replies `ENOSYS`. -/
def rename {Id : Type} (st : CacheSt Id) (_parent : Nat) (_name : String)
    (_newparent : Nat) (_newname : String) (_flags : Nat) :
    CacheSt Id × Nat := (st, ENOSYS)

/-- `WhenFS::mknod`: deliberately unimplemented, replies `ENOSYS`. -/
def mknod {Id : Type} (st : CacheSt Id) (_parent : Nat) (_name : String)
    (_mode _umask _rdev : Nat) : CacheSt Id × Nat := (st, ENOSYS)

/-- `WhenFS::readlink`: deliberately unimplemented, replies `ENOSYS`. -/
def readlink {Id : Type} (st : CacheSt Id) (_ino : Nat) :
    CacheSt Id × Nat := (st, ENOSYS)

/-- `WhenFS::fsync`: deliberately unimplemented, replies `ENOSYS`. -/
def fsync {Id : Type} (st : CacheSt Id) (_ino _fh : Nat) (_datasync : Bool) :
    CacheSt Id × Nat := (st, ENOSYS)

/-- `WhenFS::fsyncdir`: deliberately unimplemented, replies `ENOSYS`. -/
def fsyncdir {Id : Type} (st : CacheSt Id) (_ino _fh : Nat) (_datasync : Bool) :
    CacheSt Id × Nat := (st, ENOSYS)

/-- `WhenFS::setxattr`: deliberately unimplemented, replies `ENOSYS`. -/
def setxattr {Id : Type} (st : CacheSt Id) (_ino : Nat) (_name : String)
    (_value : List UInt8) (_flags _position : Nat) : CacheSt Id × Nat := (st, ENOSYS)

/-- `WhenFS::getxattr`: deliberately unimplemented, replies `ENOSYS`. -/
def getxattr {Id : Type} (st : CacheSt Id) (_ino : Nat) (_name : String)
    (_size : Nat) : CacheSt Id × Nat := (st, ENOSYS)

/-- `WhenFS::listxattr`: deliberately unimplemented, replies `ENOSYS`. -/
def listxattr {Id : Type} (st : CacheSt Id) (_ino _size : Nat) :
    CacheSt Id × Nat := (st, ENOSYS)

/-- `WhenFS::removexattr`: deliberately unimplemented, replies `ENOSYS`. -/
def removexattr {Id : Type} (st : CacheSt Id) (_ino : Nat) (_name : String) :
    CacheSt Id × Nat := (st, ENOSYS)

/-- `WhenFS::getlk`: deliberately unimplemented, replies `ENOSYS`. -/
def getlk {Id : Type} (st : CacheSt Id) (_ino _fh _lock_owner _start _stop : Nat)
    (_typ : Int) (_pid : Nat) : CacheSt Id × Nat := (st, ENOSYS)

/-- `WhenFS::setlk`: deliberately unimplemented, replies `ENOSYS`. -/
def setlk {Id : Type} (st : CacheSt Id) (_ino _fh _lock_owner _start _stop : Nat)
    (_typ : Int) (_pid : Nat) (_sleep : Bool) : CacheSt Id × Nat := (st, ENOSYS)

/-- `WhenFS::bmap`: deliberately unimplemented, replies `ENOSYS`. -/
def bmap {Id : Type} (st : CacheSt Id) (_ino _blocksize _idx : Nat) :
    CacheSt Id × Nat := (st, ENOSYS)

/-- `WhenFS::ioctl`: deliberately unimplemented, replies `ENOSYS`. -/
def ioctl {Id : Type} (st : CacheSt Id) (_ino _fh _flags _cmd : Nat)
    (_in_data : List UInt8) (_out_size : Nat) : CacheSt Id × Nat := (st, ENOSYS)

/-- `WhenFS::fallocate`: deliberately unimplemented, replies `ENOSYS`. -/
def fallocate {Id : Type} (st : CacheSt Id) (_ino _fh : Nat)
    (_offset _length : Int) (_mode : Nat) : CacheSt Id × Nat := (st, ENOSYS)

/-- `WhenFS::lseek`: deliberately unimplemented, replies `ENOSYS`. -/
def lseek {Id : Type} (st : CacheSt Id) (_ino _fh : Nat) (_offset : Int)
    (_whence : Nat) : CacheSt Id × Nat := (st, ENOSYS)

/-- `WhenFS::copy_file_range`: deliberately unimplemented, replies `ENOSYS`. -/
def copy_file_range {Id : Type} (st : CacheSt Id) (_ino_in _fh_in : Nat)
    (_offset_in : Int) (_ino_out _fh_out : Nat) (_offset_out : Int)
    (_len _flags : Nat) : CacheSt Id × Nat := (st, ENOSYS)

/-- `WhenFS::readdirplus`: deliberately unimplemented, replies `ENOSYS`. -/
def readdirplus {Id : Type} (st : CacheSt Id) (_ino _fh : Nat) (_offset : Int) :
    CacheSt Id × Nat := (st, ENOSYS)

/-- `WhenFS::symlink`: deliberately unimplemented, replies `EPERM`. -/
def symlink {Id : Type} (st : CacheSt Id) (_parent : Nat)
    (_link_name _target : String) : CacheSt Id × Nat := (st, EPERM)

/-- `WhenFS::link`: deliberately unimplemented, replies `EPERM`. -/
def link {Id : Type} (st : CacheSt Id) (_ino _newparent : Nat)
    (_newname : String) : CacheSt Id × Nat := (st, EPERM)

theorem chunksPos_eq_nil_iff {α : Type} (n : Nat) (l : List α) :
    chunksPos n l = [] ↔ l = [] := by
  cases l with
  | nil => simp [chunksPos_nil]
  | cons a as => rw [chunksPos_cons]; simp

theorem chunksPos_flatten {α : Type} (n : Nat) (l : List α) :
    (chunksPos n l).flatten = l := by
  suffices h : ∀ k (l : List α), l.length ≤ k → (chunksPos n l).flatten = l from
    h l.length l (Nat.le_refl _)
  intro k
  induction k with
  | zero =>
    intro l hl
    have hnil : l = [] := List.eq_nil_of_length_eq_zero (Nat.le_zero.mp hl)
    subst hnil
    simp [chunksPos_nil]
  | succ k ih =>
    intro l hl
    cases l with
    | nil => simp [chunksPos_nil]
    | cons a as =>
      rw [chunksPos_cons, List.flatten_cons,
        ih (as.drop n) (by simp at hl ⊢; omega)]
      simp [List.take_append_drop]

theorem chunksPos_dropLast_length {α : Type} (n : Nat) (l : List α) :
    ∀ c ∈ (chunksPos n l).dropLast, c.length = n + 1 := by
  suffices h : ∀ k (l : List α), l.length ≤ k →
      ∀ c ∈ (chunksPos n l).dropLast, c.length = n + 1 from
    h l.length l (Nat.le_refl _)
  intro k
  induction k with
  | zero =>
    intro l hl
    have hnil : l = [] := List.eq_nil_of_length_eq_zero (Nat.le_zero.mp hl)
    subst hnil
    simp [chunksPos_nil]
  | succ k ih =>
    intro l hl c hc
    cases l with
    | nil => simp [chunksPos_nil] at hc
    | cons a as =>
      rw [chunksPos_cons] at hc
      cases hrest : chunksPos n (as.drop n) with
      | nil => rw [hrest] at hc; simp at hc
      | cons c0 cs =>
        rw [hrest] at hc
        have hlen : n < as.length := by
          by_contra hle
          have hd : as.drop n = [] := List.drop_eq_nil_of_le (by omega)
          rw [hd, chunksPos_nil] at hrest
          exact List.noConfusion hrest
        rw [List.dropLast_cons₂] at hc
        rcases List.mem_cons.mp hc with h1 | h2
        · subst h1
          simp [List.length_take]
          omega
        · exact ih (as.drop n) (by simp at hl ⊢; omega) c (by rw [hrest]; exact h2)

theorem chunksPos_chunk_bounds {α : Type} (n : Nat) (l : List α) :
    ∀ c ∈ chunksPos n l, 0 < c.length ∧ c.length ≤ n + 1 := by
  suffices h : ∀ k (l : List α), l.length ≤ k →
      ∀ c ∈ chunksPos n l, 0 < c.length ∧ c.length ≤ n + 1 from
    h l.length l (Nat.le_refl _)
  intro k
  induction k with
  | zero =>
    intro l hl
    have hnil : l = [] := List.eq_nil_of_length_eq_zero (Nat.le_zero.mp hl)
    subst hnil
    simp [chunksPos_nil]
  | succ k ih =>
    intro l hl c hc
    cases l with
    | nil => simp [chunksPos_nil] at hc
    | cons a as =>
      rw [chunksPos_cons] at hc
      rcases List.mem_cons.mp hc with h1 | h2
      · subst h1
        refine ⟨by simp, ?_⟩
        simp only [List.length_cons, List.length_take]
        omega
      · exact ih (as.drop n) (by simp at hl ⊢; omega) c h2

namespace zip

/-- `zip::split` (`store.rs`): partition a byte sequence into chunks of
`chunk_size` elements; the final chunk may be shorter. Rust panics for
`chunk_size == 0`, modelled as `none`. -/
def split {α : Type} (data : List α) (chunk_size : Nat) :
    Option (List (List α)) :=
  match chunk_size with
  | 0 => none
  | m + 1 => some (chunksPos m data)

/-- `zip::zip` (`store.rs`): `strings.join("")`, concatenation in
order. -/
def zip {α : Type} (strings : List (List α)) : List α := strings.flatten

end zip

/-- C8: for every byte sequence and every chunk size `n = m + 1 ≥ 1`,
`split` succeeds and partitions the sequence into contiguous chunks
that are all of length exactly `n` except the final one, which is
shorter or equal and never empty; the split of the empty sequence is
the empty list, and `zip (split s n) = s`. -/
theorem split_zip_roundtrip (m : Nat) (data : List UInt8) :
    zip.split data (m + 1) = some (chunksPos m data) ∧
    zip.zip (chunksPos m data) = data ∧
    (∀ c ∈ (chunksPos m data).dropLast, c.length = m + 1) ∧
    (∀ c ∈ chunksPos m data, 0 < c.length ∧ c.length ≤ m + 1) ∧
    (zip.split ([] : List UInt8) (m + 1) = some []) := by
  refine ⟨rfl, chunksPos_flatten m data, chunksPos_dropLast_length m data,
    chunksPos_chunk_bounds m data, ?_⟩
  simp [zip.split, chunksPos_nil]

/-- Witness for C8 at a concrete input: chunk size `2` over five bytes
gives chunks `[1,2]`, `[3,4]`, `[5]` and joins back. -/
theorem split_zip_roundtrip_witness :
    zip.split ([1, 2, 3, 4, 5] : List UInt8) 2
      = some (chunksPos 1 ([1, 2, 3, 4, 5] : List UInt8)) ∧
    zip.zip (chunksPos 1 ([1, 2, 3, 4, 5] : List UInt8)) = [1, 2, 3, 4, 5] ∧
    chunksPos 1 ([1, 2, 3, 4, 5] : List UInt8) = [[1, 2], [3, 4], [5]] := by
  refine ⟨(split_zip_roundtrip 1 [1, 2, 3, 4, 5]).1,
    (split_zip_roundtrip 1 [1, 2, 3, 4, 5]).2.1, ?_⟩
  simp [chunksPos_cons, chunksPos_nil]

/-- Rust `String`, modelled as its character sequence. -/
abbrev Str := List Char

/-- `CalendarEventDetails` (`calendar.rs`); timestamps in minutes. -/
structure CalendarEventDetails where
  summary : Str
  description : Str
  location : Str
  startTime : Nat
  endTime : Nat
deriving DecidableEq

/-- A calendar event: the provider-assigned id plus its details. -/
structure CalEvent where
  id : Str
  details : CalendarEventDetails
deriving DecidableEq

/-- Simulated calendar: the stored events keyed by id, and a counter
from which the provider derives fresh event ids via `mkId`. -/
structure SimCalendar where
  events : List (Str × CalEvent)
  counter : Nat
deriving DecidableEq

/-- `CalendarClient::get_event_by_id` against the simulated calendar. -/
def findEvent (cal : SimCalendar) (id : Str) : Option CalEvent :=
  lookupA cal.events id

/-- `CalendarClient::create_event` against the simulated calendar:
assigns the fresh id `mkId cal.counter` and stores the event. -/
def create_event (mkId : Nat → Str) (cal : SimCalendar)
    (d : CalendarEventDetails) : CalEvent × SimCalendar :=
  let id := mkId cal.counter
  let ev : CalEvent := ⟨id, d⟩
  (ev, ⟨cal.events ++ [(id, ev)], cal.counter + 1⟩)

/-- `CalStore::upload` (`store.rs`): walk the details in order,
setting each summary to `prev` (initially the sentinel), creating the
event remotely and advancing `prev` to the assigned id. -/
def upload (mkId : Nat → Str) :
    List CalendarEventDetails → Str → SimCalendar → List CalEvent × SimCalendar
  | [], _, cal => ([], cal)
  | d :: ds, prev, cal =>
    let pc := create_event mkId cal { d with summary := prev }
    let rest := upload mkId ds pc.1.id pc.2
    (pc.1 :: rest.1, rest.2)

/-- `CalStore::download` (`store.rs`): starting from the tail id,
repeatedly fetch the event and follow its summary back-pointer,
prepending fetched events, until the id equals the sentinel. The Rust
loop is unbounded; `fuel` bounds the walk, and `none` models both a
missing event and a walk that fails to reach the sentinel. -/
def downloadFuel (cal : SimCalendar) (sentinel : Str) :
    Nat → Str → Option (List CalEvent)
  | 0, id => if id = sentinel then some [] else none
  | fuel + 1, id =>
    if id = sentinel then some []
    else
      match findEvent cal id with
      | none => none
      | some ev => (downloadFuel cal sentinel fuel ev.details.summary).map (· ++ [ev])

/-- `calendarize::calendarize` (`store.rs`): chunk `i` becomes an event
body with empty summary, the chunk as description, the decimal index
as location and a five-minute window starting at `now + 5 i`. -/
def calendarize (data : List Str) (now : Nat) : List CalendarEventDetails :=
  data.enum.map (fun p =>
    ⟨[], p.2, (toString p.1).data, now + 5 * p.1, now + 5 * p.1 + 5⟩)

/-- `calendarize::uncalendarize` (`store.rs`): project descriptions. -/
def uncalendarize (events : List CalendarEventDetails) : List Str :=
  events.map (·.description)

/-- `CalStoreEntry` (`store.rs`): the chain handle, a logical name plus
the ordered event list. -/
structure CalStoreEntry where
  name : Str
  events : List CalEvent
deriving DecidableEq

/-- `CalStore::store` (`store.rs`): encode the value, split into
chunks of the client's description limit, calendarize, upload with the
entry name as sentinel. `enc` stands for the serialize-then-base64
codec (`encoding::encode`); `none` models the `chunks(0)` panic. -/
def store {V : Type} (enc : V → Str) (mkId : Nat → Str)
    (chunkSize now : Nat) (cal : SimCalendar) (item : V) (name : Str) :
    Option (CalStoreEntry × SimCalendar) :=
  match zip.split (enc item) chunkSize with
  | none => none
  | some chunks =>
    let details := calendarize chunks now
    let up := upload mkId details name cal
    some (⟨name, up.1⟩, up.2)

/-- `CalStore::retrieve` (`store.rs`): walk back from the tail event of
the entry, concatenate the descriptions in order and decode. `dec`
stands for `encoding::decode`; the `events.last().unwrap()` panic on an
empty entry is modelled as `none`. -/
def retrieve {V : Type} (dec : Str → Option V) (cal : SimCalendar)
    (entry : CalStoreEntry) : Option V :=
  match entry.events.getLast? with
  | none => none
  | some tail =>
    match downloadFuel cal entry.name (cal.events.length + 1) tail.id with
    | none => none
    | some evs => dec (zip.zip (uncalendarize (evs.map (·.details))))

/-- Closed form of the event list produced by `upload`: event `i`
carries id `mkId (c + i)` and its summary points at its predecessor
(`prev` for the first event). -/
def chainOf (mkId : Nat → Str) :
    List CalendarEventDetails → Str → Nat → List CalEvent
  | [], _, _ => []
  | d :: ds, prev, c =>
    ⟨mkId c, { d with summary := prev }⟩ :: chainOf mkId ds (mkId c) (c + 1)

/-- Chain identity: the id of the last event, or the default for an
empty chain. -/
def tailId (es : List CalEvent) (dflt : Str) : Str :=
  match es.getLast? with
  | none => dflt
  | some e => e.id

theorem tailId_nil (dflt : Str) : tailId [] dflt = dflt := rfl

theorem tailId_cons (x : CalEvent) (xs : List CalEvent) (dflt : Str) :
    tailId (x :: xs) dflt = tailId xs x.id := by
  cases xs with
  | nil => rfl
  | cons y ys =>
    simp only [tailId, List.getLast?_cons_cons]
    cases h : (y :: ys).getLast? with
    | none => rw [List.getLast?_eq_none_iff] at h; exact List.noConfusion h
    | some e => rfl

theorem tailId_concat (xs : List CalEvent) (ev : CalEvent) (dflt : Str) :
    tailId (xs ++ [ev]) dflt = ev.id := by
  simp [tailId, List.getLast?_concat]

theorem chainOf_length (mkId : Nat → Str) (ds : List CalendarEventDetails)
    (prev : Str) (c : Nat) : (chainOf mkId ds prev c).length = ds.length := by
  induction ds generalizing prev c with
  | nil => rfl
  | cons d ds ih => simp [chainOf, ih]

theorem upload_eq (mkId : Nat → Str) (ds : List CalendarEventDetails)
    (prev : Str) (cal : SimCalendar) :
    upload mkId ds prev cal =
      (chainOf mkId ds prev cal.counter,
       ⟨cal.events ++ (chainOf mkId ds prev cal.counter).map (fun e => (e.id, e)),
        cal.counter + ds.length⟩) := by
  induction ds generalizing prev cal with
  | nil => simp [upload, chainOf]
  | cons d ds ih =>
    simp only [upload, create_event, chainOf]
    rw [ih]
    simp [List.append_assoc, Nat.add_assoc, Nat.add_comm 1 ds.length]

theorem chainOf_append (mkId : Nat → Str) (ds es : List CalendarEventDetails)
    (prev : Str) (c : Nat) :
    chainOf mkId (ds ++ es) prev c =
      chainOf mkId ds prev c ++
        chainOf mkId es (tailId (chainOf mkId ds prev c) prev) (c + ds.length) := by
  induction ds generalizing prev c with
  | nil => simp [chainOf, tailId_nil]
  | cons d ds ih =>
    simp only [List.cons_append, chainOf, List.length_cons, List.append_eq]
    rw [ih, tailId_cons]
    have harith : c + 1 + ds.length = c + (ds.length + 1) := by omega
    rw [harith]

theorem chainOf_map_id (mkId : Nat → Str) (ds : List CalendarEventDetails)
    (prev : Str) (c : Nat) :
    (chainOf mkId ds prev c).map (·.id) = (List.range' c ds.length).map mkId := by
  induction ds generalizing prev c with
  | nil => rfl
  | cons d ds ih => simp [chainOf, List.range', ih]

theorem chainOf_map_description (mkId : Nat → Str)
    (ds : List CalendarEventDetails) (prev : Str) (c : Nat) :
    (chainOf mkId ds prev c).map (fun e => e.details.description)
      = ds.map (·.description) := by
  induction ds generalizing prev c with
  | nil => rfl
  | cons d ds ih => simp [chainOf, ih]

theorem calendarize_map_description (data : List Str) (now : Nat) :
    (calendarize data now).map (·.description) = data := by
  simp only [calendarize, List.map_map]
  have h : ((fun x : CalendarEventDetails => x.description) ∘
      fun p : Nat × Str =>
        CalendarEventDetails.mk [] p.2 (toString p.1).data
          (now + 5 * p.1) (now + 5 * p.1 + 5)) = Prod.snd := rfl
  rw [h, List.enum_map_snd]

theorem lookupA_append_of_none {κ β : Type} [DecidableEq κ]
    (a b : List (κ × β)) (k : κ) (h : lookupA a k = none) :
    lookupA (a ++ b) k = lookupA b k := by
  induction a with
  | nil => rfl
  | cons p rest ih =>
    by_cases hk : p.1 = k
    · simp [lookupA, hk] at h
    · simp only [lookupA, hk, if_false] at h
      simp [lookupA, hk, ih h]

theorem chain_id_is_mkId (mkId : Nat → Str) (ds : List CalendarEventDetails)
    (prev : Str) (c : Nat) (ev : CalEvent) (hev : ev ∈ chainOf mkId ds prev c) :
    ∃ j, c ≤ j ∧ ev.id = mkId j := by
  have hid : ev.id ∈ (chainOf mkId ds prev c).map (·.id) :=
    List.mem_map_of_mem _ hev
  rw [chainOf_map_id] at hid
  obtain ⟨m, hm, heq⟩ := List.mem_map.mp hid
  obtain ⟨i, _, hi⟩ := List.mem_range'.mp hm
  exact ⟨m, by omega, heq.symm⟩

theorem lookup_chain (mkId : Nat → Str)
    (hInj : ∀ a b, mkId a = mkId b → a = b)
    (ds : List CalendarEventDetails) :
    ∀ (prev : Str) (c : Nat) (ev : CalEvent), ev ∈ chainOf mkId ds prev c →
      lookupA ((chainOf mkId ds prev c).map (fun e => (e.id, e))) ev.id
        = some ev := by
  induction ds with
  | nil => intro prev c ev hev; simp [chainOf] at hev
  | cons d ds ih =>
    intro prev c ev hev
    simp only [chainOf, List.map_cons] at hev ⊢
    rcases List.mem_cons.mp hev with h1 | h2
    · subst h1
      simp [lookupA]
    · have hne : mkId c ≠ ev.id := by
        obtain ⟨j, hj, hid⟩ := chain_id_is_mkId mkId ds (mkId c) (c + 1) ev h2
        rw [hid]
        intro hcj
        have := hInj _ _ hcj
        omega
      simp only [lookupA, hne, if_false]
      exact ih (mkId c) (c + 1) ev h2

theorem download_chain (mkId : Nat → Str)
    (hInj : ∀ a b, mkId a = mkId b → a = b)
    (sentinel : Str) (hSent : ∀ n, mkId n ≠ sentinel)
    (cal : SimCalendar) (hFresh : ∀ n, findEvent cal (mkId n) = none)
    (dsFull : List CalendarEventDetails) (calFull : SimCalendar)
    (hcalFull : calFull.events =
      cal.events ++ (chainOf mkId dsFull sentinel cal.counter).map (fun e => (e.id, e))) :
    ∀ ds rest, dsFull = ds ++ rest → ∀ fuel, ds.length ≤ fuel →
      downloadFuel calFull sentinel fuel
          (tailId (chainOf mkId ds sentinel cal.counter) sentinel)
        = some (chainOf mkId ds sentinel cal.counter) := by
  have hlookup : ∀ ev ∈ chainOf mkId dsFull sentinel cal.counter,
      findEvent calFull ev.id = some ev := by
    intro ev hev
    obtain ⟨j, _, hid⟩ := chain_id_is_mkId mkId dsFull sentinel cal.counter ev hev
    have hnone : lookupA cal.events ev.id = none := by
      rw [hid]; exact hFresh j
    unfold findEvent
    rw [hcalFull, lookupA_append_of_none _ _ _ hnone]
    exact lookup_chain mkId hInj dsFull sentinel cal.counter ev hev
  intro ds
  induction ds using List.reverseRecOn with
  | nil =>
    intro rest hpre fuel hfuel
    cases fuel <;> simp [downloadFuel, tailId_nil, chainOf]
  | append_singleton ds d ih =>
    intro rest hpre fuel hfuel
    have hfuel1 : ds.length + 1 ≤ fuel := by
      simpa using hfuel
    obtain ⟨f, rfl⟩ : ∃ f, fuel = f + 1 := ⟨fuel - 1, by omega⟩
    have hsnoc : chainOf mkId (ds ++ [d]) sentinel cal.counter
        = chainOf mkId ds sentinel cal.counter ++
          [⟨mkId (cal.counter + ds.length),
            { d with summary := tailId (chainOf mkId ds sentinel cal.counter) sentinel }⟩] := by
      rw [chainOf_append]
      simp [chainOf]
    rw [hsnoc, tailId_concat]
    have hmem : (⟨mkId (cal.counter + ds.length),
        { d with summary := tailId (chainOf mkId ds sentinel cal.counter) sentinel }⟩ : CalEvent)
        ∈ chainOf mkId dsFull sentinel cal.counter := by
      rw [hpre, chainOf_append, hsnoc]
      exact List.mem_append_left _ (List.mem_append_right _ (List.mem_singleton.mpr rfl))
    have hfind := hlookup _ hmem
    simp only [downloadFuel, hSent (cal.counter + ds.length), if_false, hfind]
    have hih := ih ([d] ++ rest) (by rw [hpre, List.append_assoc]) f (by omega)
    rw [hih]
    rfl

/-- C3: for every serializable value `v` and sentinel `name`,
`retrieve (store v name) = v` against the simulated calendar, given
that the codec round-trips, that the calendar assigns fresh injective
ids none of which equals the sentinel name, that the chunk size is
positive and that the encoding of `v` is non-empty (the codec's base64
output is never empty in the source). -/
theorem store_retrieve_roundtrip {V : Type} (enc : V → Str) (dec : Str → Option V)
    (hRound : ∀ x, dec (enc x) = some x)
    (mkId : Nat → Str) (hInj : ∀ a b, mkId a = mkId b → a = b)
    (name : Str) (hSent : ∀ n, mkId n ≠ name)
    (chunkSize now : Nat) (hCS : 0 < chunkSize)
    (cal : SimCalendar) (hFresh : ∀ n, findEvent cal (mkId n) = none)
    (v : V) (hNE : enc v ≠ []) :
    ∃ entry cal2, store enc mkId chunkSize now cal v name = some (entry, cal2) ∧
      retrieve dec cal2 entry = some v := by
  obtain ⟨m, rfl⟩ : ∃ m, chunkSize = m + 1 := ⟨chunkSize - 1, by omega⟩
  set chunks := chunksPos m (enc v) with hchunks
  set details := calendarize chunks now with hdetails
  set E := chainOf mkId details name cal.counter with hE
  set calFull : SimCalendar :=
    ⟨cal.events ++ E.map (fun e => (e.id, e)), cal.counter + details.length⟩
    with hcalFull
  have hstore : store enc mkId (m + 1) now cal v name = some (⟨name, E⟩, calFull) := by
    simp only [store, zip.split]
    rw [upload_eq]
  have hElen : E.length = chunks.length := by
    rw [hE, chainOf_length, hdetails]
    simp [calendarize]
  have hchunksne : chunks ≠ [] := by
    rw [hchunks]
    intro hnil
    exact hNE ((chunksPos_eq_nil_iff m (enc v)).mp hnil)
  have hEne : E ≠ [] := by
    intro hnil
    apply hchunksne
    have := hElen
    rw [hnil] at this
    simp at this
    exact List.eq_nil_of_length_eq_zero this.symm
  obtain ⟨tl, htl⟩ : ∃ tl, E.getLast? = some tl := by
    cases h : E.getLast? with
    | none => exact absurd (List.getLast?_eq_none_iff.mp h) hEne
    | some e => exact ⟨e, rfl⟩
  have htail : tl.id = tailId E name := by
    rw [tailId, htl]
  have hdl : downloadFuel calFull name (calFull.events.length + 1) (tailId E name)
      = some E :=
    download_chain mkId hInj name hSent cal hFresh details calFull rfl
      details [] (by simp) (calFull.events.length + 1)
      (by
        have hlen : calFull.events.length
            = cal.events.length + E.length := by
          simp [hcalFull]
        rw [hE, chainOf_length] at hlen
        omega)
  refine ⟨⟨name, E⟩, calFull, hstore, ?_⟩
  simp only [retrieve, htl, htail, hdl]
  have hdesc : (E.map (·.details)).map (·.description) = chunks := by
    rw [List.map_map]
    have h1 : (E.map (fun e => e.details.description)) = details.map (·.description) := by
      rw [hE]
      exact chainOf_map_description mkId details name cal.counter
    have h2 : details.map (·.description) = chunks := by
      rw [hdetails]
      exact calendarize_map_description chunks now
    calc (E.map fun e => e.details.description) = details.map (·.description) := h1
      _ = chunks := h2
  simp only [uncalendarize, zip.zip]
  rw [List.map_map] at hdesc ⊢
  rw [hdesc, hchunks, chunksPos_flatten]
  exact hRound v

theorem cache_get_frame {Id ε : Type} [DecidableEq Id] (rr : Except ε FSObj)
    (st : CacheSt Id) (ino : Nat) :
    (cache_get rr st ino).1.inodeCount = st.inodeCount ∧
    (cache_get rr st ino).1.inoToId = st.inoToId ∧
    (cache_get rr st ino).1.rootEvent = st.rootEvent ∧
    ((cache_get rr st ino).1.idToObj = st.idToObj ∨
      ∃ cid obj, (cache_get rr st ino).1.idToObj = insertA st.idToObj cid obj) := by
  unfold cache_get
  cases h1 : lookupA st.inoToId ino with
  | none => exact ⟨rfl, rfl, rfl, Or.inl rfl⟩
  | some cid =>
    cases h2 : lookupA st.idToObj cid with
    | some obj => simp [h2]
    | none =>
      cases rr with
      | error e => simp [h2]
      | ok obj => simp [h2]

/-- Witness for C3: a boolean value stored with chunk size 1 against an
empty simulated calendar whose ids are runs of the letter a, with
sentinel name the single letter r, is retrieved unchanged. -/
theorem store_retrieve_roundtrip_witness :
    ∃ entry cal2,
      store (fun b : Bool => if b then ['t'] else ['f'])
          (fun n => List.replicate (n + 1) 'a') 1 0 ⟨[], 0⟩ true ['r']
        = some (entry, cal2) ∧
      retrieve
          (fun s => if s = ['t'] then some true
                    else if s = ['f'] then some false else none)
          cal2 entry
        = some true := by
  apply store_retrieve_roundtrip
  · intro x; cases x <;> decide
  · intro a b h
    have hl := congrArg List.length h
    simp at hl
    exact hl
  · intro n h
    rw [List.replicate_succ] at h
    injection h with h1 h2
    exact absurd h1 (by decide)
  · decide
  · intro n; rfl
  · decide

theorem sliceRange_clip (l : List UInt8) (lo size : Nat) (h : lo ≤ l.length) :
    sliceRange l lo (min (lo + size) l.length) = some ((l.drop lo).take size) := by
  unfold sliceRange
  have h1 : lo ≤ min (lo + size) l.length :=
    le_min (Nat.le_add_right _ _) h
  have h2 : min (lo + size) l.length ≤ l.length := Nat.min_le_right _ _
  rw [if_pos ⟨h1, h2⟩]
  congr 1
  rcases Nat.le_total (lo + size) l.length with hle | hge
  · rw [Nat.min_eq_left hle, Nat.add_sub_cancel_left]
  · rw [Nat.min_eq_right hge]
    have hdl : (l.drop lo).length = l.length - lo := List.length_drop _ _
    rw [List.take_of_length_le (by omega), List.take_of_length_le (by omega)]

/-- C4 (amended): for every non-negative offset, `read` replies the
slice `[offset, offset + size)` of the content clipped to the content
length — the welcome bytes for inode 2, the in-memory buffer for other
regular files — and `EISDIR` for directories, provided
`offset ≤ content length`; for larger offsets the slice bounds invert
and the code panics instead of replying. -/
theorem read_clipped_slice {Id ε : Type} [DecidableEq Id]
    (rr : Except ε FSObj) (st : CacheSt Id) (offset : Int) (size : Nat)
    (calId rootId : String) (h0 : 0 ≤ offset) :
    (offset.toNat ≤ (strBytes (welcomeContents calId rootId)).length →
      read rr st 2 offset size calId rootId
        = (st, some (ReadReply.data
            (((strBytes (welcomeContents calId rootId)).drop offset.toNat).take size)))) ∧
    (∀ ino st2 d, ino ≠ 2 →
      cache_get rr st ino = (st2, Except.ok (some (FSObj.dir d))) →
      read rr st ino offset size calId rootId = (st2, some (ReadReply.error EISDIR))) ∧
    (∀ ino st2 f, ino ≠ 2 →
      cache_get rr st ino = (st2, Except.ok (some (FSObj.file f))) →
      offset.toNat ≤ f.data.length →
      read rr st ino offset size calId rootId
        = (st2, some (ReadReply.data ((f.data.drop offset.toNat).take size)))) := by
  have hnneg : ¬ offset < 0 := by omega
  refine ⟨?_, ?_, ?_⟩
  · intro hlen
    simp only [read, if_neg hnneg, if_pos rfl]
    rw [sliceRange_clip _ _ _ hlen]
    simp
  · intro ino st2 d hino hget
    simp only [read, if_neg hnneg, if_neg hino, hget]
  · intro ino st2 f hino hget hlen
    simp only [read, if_neg hnneg, if_neg hino, hget]
    rw [sliceRange_clip _ _ _ hlen]

/-- Witness for C4 at a concrete input: reading 2 bytes at offset 1 of
a cached 3-byte file yields its middle slice. -/
theorem read_clipped_slice_witness :
    read (Except.error () : Except Unit FSObj)
        (⟨[(7, 50)],
          [(50, FSObj.file ⟨⟨7, 3, 0, 0, 0, 0, 0, .regularFile, 420, 1, 0, 0, 0, 512, 0⟩,
            "f", [97, 98, 99]⟩)], 8, 0⟩ : CacheSt Nat)
        7 1 2 "c" "r"
      = ((⟨[(7, 50)],
          [(50, FSObj.file ⟨⟨7, 3, 0, 0, 0, 0, 0, .regularFile, 420, 1, 0, 0, 0, 512, 0⟩,
            "f", [97, 98, 99]⟩)], 8, 0⟩ : CacheSt Nat),
         some (ReadReply.data [98, 99])) := by
  have h := (read_clipped_slice (Except.error () : Except Unit FSObj)
    (⟨[(7, 50)],
      [(50, FSObj.file ⟨⟨7, 3, 0, 0, 0, 0, 0, .regularFile, 420, 1, 0, 0, 0, 512, 0⟩,
        "f", [97, 98, 99]⟩)], 8, 0⟩ : CacheSt Nat)
    1 2 "c" "r" (by decide)).2.2 7 _
    ⟨⟨7, 3, 0, 0, 0, 0, 0, .regularFile, 420, 1, 0, 0, 0, 512, 0⟩, "f", [97, 98, 99]⟩
    (by decide) rfl (by decide)
  rw [h]
  decide

/-- Counterexample for C4 as stated: at offset 10 past the 3-byte
content the slice bounds invert, so the code panics (`none`) instead of
replying the clipped (empty) slice. -/
theorem read_past_end_panics :
    (read (Except.error () : Except Unit FSObj)
        (⟨[(7, 50)],
          [(50, FSObj.file ⟨⟨7, 3, 0, 0, 0, 0, 0, .regularFile, 420, 1, 0, 0, 0, 512, 0⟩,
            "f", [97, 98, 99]⟩)], 8, 0⟩ : CacheSt Nat)
        7 10 5 "c" "r").2 = none ∧
    (read (Except.error () : Except Unit FSObj)
        (⟨[(7, 50)],
          [(50, FSObj.file ⟨⟨7, 3, 0, 0, 0, 0, 0, .regularFile, 420, 1, 0, 0, 0, 512, 0⟩,
            "f", [97, 98, 99]⟩)], 8, 0⟩ : CacheSt Nat)
        7 10 5 "c" "r").2 ≠ some (ReadReply.data []) := by
  constructor <;> decide

/-- C1: evaluation of `write` at a failing input. On a regular file of
size 5, writing 3 bytes at offset 4 replies `written 3` but resizes the
buffer and the size attribute to `old_size + len(data) = 8` — with a
stray trailing zero byte — instead of `max(old_size, offset + len) = 7`
as the specification requires. -/
theorem write_resizes_to_old_size_plus_len :
    (write (Except.error () : Except Unit FSObj) (Except.ok 51) (Except.ok 52)
        (⟨[(7, 50)],
          [(50, FSObj.file ⟨⟨7, 5, 0, 0, 0, 0, 0, .regularFile, 420, 1, 0, 0, 0, 512, 0⟩,
            "f", [104, 101, 108, 108, 111]⟩)], 8, 0⟩ : CacheSt Nat)
        7 (2 ^ 62) 4 [120, 121, 122] 99).2 = some (WriteReply.written 3) ∧
    (lookupA
        (write (Except.error () : Except Unit FSObj) (Except.ok 51) (Except.ok 52)
          (⟨[(7, 50)],
            [(50, FSObj.file ⟨⟨7, 5, 0, 0, 0, 0, 0, .regularFile, 420, 1, 0, 0, 0, 512, 0⟩,
              "f", [104, 101, 108, 108, 111]⟩)], 8, 0⟩ : CacheSt Nat)
          7 (2 ^ 62) 4 [120, 121, 122] 99).1.idToObj 51).map
        (fun o => (o.get_attr.size, o.dataOf))
      = some (8, [104, 101, 108, 108, 120, 121, 122, 0]) ∧
    (8 : Nat) ≠ max 5 (4 + 3) := by
  refine ⟨by decide, by decide, by decide⟩

/-- C2: evaluation of `check_access` at a failing input. For root
(`uid = 0`) and a file with mode `0o755`, the xor in the source denies
plain `R_OK` and `W_OK` requests, although the code's own comment says
root may read or write anything. -/
theorem root_access_denied_with_exec_bit :
    check_access 0 0 0o755 0 0 R_OK = false ∧
    check_access 0 0 0o755 0 0 W_OK = false ∧
    check_access 0 0 0o644 0 0 R_OK = true := by
  decide

/-- C7 (amended): every `write` call with non-negative offset whose
file handle lacks the write-capability bit 62 replies `EACCES` and
leaves the entire cache state unchanged. -/
theorem write_rejects_handle_without_write_bit {Id ε : Type} [DecidableEq Id]
    (rr : Except ε FSObj) (sr ur : Except ε Id) (st : CacheSt Id)
    (ino fh : Nat) (offset : Int) (data : List UInt8) (now : Nat)
    (h0 : 0 ≤ offset) (h : check_file_handle_write fh = false) :
    write rr sr ur st ino fh offset data now = (st, some (WriteReply.error EACCES)) := by
  have hnneg : ¬ offset < 0 := by omega
  simp [write, hnneg, h]

/-- Witness for C7: handle 0 has no write bit, so a write at offset 0
is rejected with `EACCES` and the state is untouched. -/
theorem write_rejects_handle_without_write_bit_witness :
    write (Except.error () : Except Unit FSObj) (Except.error ()) (Except.error ())
        (⟨[], [], 3, 0⟩ : CacheSt Nat) 7 0 0 [1, 2] 5
      = ((⟨[], [], 3, 0⟩ : CacheSt Nat), some (WriteReply.error EACCES)) :=
  write_rejects_handle_without_write_bit _ _ _ _ 7 0 0 [1, 2] 5
    (by decide) (by decide)

/-- Counterexample for C7 as stated: with a negative offset the
`EINVAL` check fires before the handle check, so a write through a
handle with bit 62 clear is answered `EINVAL`, not `EACCES`. -/
theorem write_negative_offset_einval :
    (write (Except.error () : Except Unit FSObj) (Except.error ()) (Except.error ())
        (⟨[], [], 3, 0⟩ : CacheSt Nat) 7 0 (-1) [1] 5).2
      ≠ some (WriteReply.error EACCES) ∧
    (write (Except.error () : Except Unit FSObj) (Except.error ()) (Except.error ())
        (⟨[], [], 3, 0⟩ : CacheSt Nat) 7 0 (-1) [1] 5).2
      = some (WriteReply.error EINVAL) := by
  constructor <;> decide

/-- C5: the inode counter is strictly monotonic — later `new_inode`
calls return strictly greater values, so no inode is ever re-issued
within the process lifetime (the other cache operations never touch the
counter) — and on a cache built by `recover` the first `new_inode`
result is strictly greater than every inode of the recovered mapping. -/
theorem new_inode_monotonic :
    (∀ (Id : Type) (st : CacheSt Id) (i j : Nat), i < j →
      nth_new_inode st i < nth_new_inode st j) ∧
    (∀ (Id : Type) (m : List (Nat × Id)) (rootId : Id) (st : CacheSt Id),
      recover m rootId = some st → ∀ p ∈ m, p.1 < (new_inode st).1) ∧
    (∀ (Id ε : Type) (inst : DecidableEq Id) (sr ur : Except ε Id)
      (st : CacheSt Id) (ino : Nat) (item : FSObj),
      (cache_insert sr ur st ino item).1.inodeCount = st.inodeCount) ∧
    (∀ (Id ε : Type) (inst : DecidableEq Id) (rr : Except ε FSObj)
      (st : CacheSt Id) (ino : Nat),
      (cache_get rr st ino).1.inodeCount = st.inodeCount) := by
  refine ⟨?_, ?_, ?_, ?_⟩
  · intro Id st i j hij
    rw [nth_new_inode_eq, nth_new_inode_eq]
    omega
  · intro Id m rootId st hrec p hp
    unfold recover at hrec
    cases hmx : maxKey m with
    | none => rw [hmx] at hrec; exact Option.noConfusion hrec
    | some mx =>
      rw [hmx] at hrec
      have hst := Option.some.inj hrec
      have hle := le_of_mem_maxKey m mx hmx p hp
      rw [← hst]
      simp [new_inode]
      omega
  · intro Id ε inst sr ur st ino item
    unfold cache_insert
    cases sr with
    | error e => rfl
    | ok id =>
      cases ur with
      | error e => rfl
      | ok nb => rfl
  · intro Id ε inst rr st ino
    exact (cache_get_frame rr st ino).1

/-- Witness for C5: concrete monotonicity of two allocations, and a
recovery from the mapping with single inode 4 whose first allocation
returns 5. -/
theorem new_inode_monotonic_witness :
    nth_new_inode (⟨[], [], 3, 0⟩ : CacheSt Nat) 0
      < nth_new_inode (⟨[], [], 3, 0⟩ : CacheSt Nat) 2 ∧
    (4 : Nat) < (new_inode (⟨[(4, 9)], [], 5, 0⟩ : CacheSt Nat)).1 := by
  constructor
  · exact new_inode_monotonic.1 Nat ⟨[], [], 3, 0⟩ 0 2 (by decide)
  · exact new_inode_monotonic.2.1 Nat [(4, 9)] 0 ⟨[(4, 9)], [], 5, 0⟩ rfl (4, 9)
      (List.mem_singleton.mpr rfl)

/-- C9: when the store step of `Cache::insert` succeeds with chain `id`
but the root-chain update fails with `e`, `insert` returns the error
while the inode-to-chain mapping and the object table have already been
updated to the new chain and `root_event` still names the old root. -/
theorem insert_no_rollback_on_update_error (Id ε : Type) [DecidableEq Id]
    (st : CacheSt Id) (ino : Nat) (item : FSObj) (id : Id) (e : ε) :
    (cache_insert (Except.ok id) (Except.error e) st ino item).2 = Except.error e ∧
    (cache_insert (Except.ok id) (Except.error e) st ino item).1.rootEvent
      = st.rootEvent ∧
    (cache_insert (Except.ok id) (Except.error e) st ino item).1.inoToId
      = insertA st.inoToId ino id ∧
    (cache_insert (Except.ok id) (Except.error e) st ino item).1.idToObj
      = insertA st.idToObj id item ∧
    lookupA (cache_insert (Except.ok id) (Except.error e) st ino item).1.inoToId ino
      = some id :=
  ⟨rfl, rfl, rfl, rfl, lookupA_insertA_self st.inoToId ino id⟩

/-- C10: `recover` panics (models: returns `none`) exactly when the
inode mapping decoded from the root chain is empty, and returns a cache
for every non-empty mapping. -/
theorem recover_panics_iff_empty_mapping (Id : Type) (m : List (Nat × Id))
    (rootId : Id) : recover m rootId = none ↔ m = [] := by
  cases m with
  | nil => simp [recover, maxKey]
  | cons p rest => simp [recover, maxKey]

/-- C6 (amended): every deliberately unimplemented operation — mkdir,
unlink, rmdir, rename, mknod, readlink, fsync, fsyncdir, the xattr
operations, getlk, setlk, bmap, ioctl, fallocate, lseek,
copy_file_range, readdirplus — replies `ENOSYS` (`EPERM` for symlink
and link) and leaves the cache state identical; `setattr` with `size`
set (and mode, uid, gid unset) replies `ENOSYS` and leaves the inode
counter, the inode-to-chain mapping and the root chain id unchanged,
but may add the freshly materialized target object to the object table
when the preceding cache lookup misses. -/
theorem unimplemented_ops_preserve_state (Id ε : Type) [DecidableEq Id] :
    (∀ (st : CacheSt Id) p nm md um, mkdir st p nm md um = (st, ENOSYS)) ∧
    (∀ (st : CacheSt Id) p nm, unlink st p nm = (st, ENOSYS)) ∧
    (∀ (st : CacheSt Id) p nm, rmdir st p nm = (st, ENOSYS)) ∧
    (∀ (st : CacheSt Id) p nm np nn fl, rename st p nm np nn fl = (st, ENOSYS)) ∧
    (∀ (st : CacheSt Id) p nm md um rd, mknod st p nm md um rd = (st, ENOSYS)) ∧
    (∀ (st : CacheSt Id) i, readlink st i = (st, ENOSYS)) ∧
    (∀ (st : CacheSt Id) i f ds, fsync st i f ds = (st, ENOSYS)) ∧
    (∀ (st : CacheSt Id) i f ds, fsyncdir st i f ds = (st, ENOSYS)) ∧
    (∀ (st : CacheSt Id) i nm vl fl ps, setxattr st i nm vl fl ps = (st, ENOSYS)) ∧
    (∀ (st : CacheSt Id) i nm sz, getxattr st i nm sz = (st, ENOSYS)) ∧
    (∀ (st : CacheSt Id) i sz, listxattr st i sz = (st, ENOSYS)) ∧
    (∀ (st : CacheSt Id) i nm, removexattr st i nm = (st, ENOSYS)) ∧
    (∀ (st : CacheSt Id) i f lo s e ty pd, getlk st i f lo s e ty pd = (st, ENOSYS)) ∧
    (∀ (st : CacheSt Id) i f lo s e ty pd sl,
      setlk st i f lo s e ty pd sl = (st, ENOSYS)) ∧
    (∀ (st : CacheSt Id) i bs ix, bmap st i bs ix = (st, ENOSYS)) ∧
    (∀ (st : CacheSt Id) i f fl cm dt os, ioctl st i f fl cm dt os = (st, ENOSYS)) ∧
    (∀ (st : CacheSt Id) i f o l md, fallocate st i f o l md = (st, ENOSYS)) ∧
    (∀ (st : CacheSt Id) i f o w, lseek st i f o w = (st, ENOSYS)) ∧
    (∀ (st : CacheSt Id) a b c d e f g h,
      copy_file_range st a b c d e f g h = (st, ENOSYS)) ∧
    (∀ (st : CacheSt Id) i f o, readdirplus st i f o = (st, ENOSYS)) ∧
    (∀ (st : CacheSt Id) p ln tg, symlink st p ln tg = (st, EPERM)) ∧
    (∀ (st : CacheSt Id) i np nn, link st i np nn = (st, EPERM)) ∧
    (∀ (rr : Except ε FSObj) (sr ur : Except ε Id) (st st2 : CacheSt Id)
        (ru rg ino s now : Nat) (obj : FSObj),
      cache_get rr st ino = (st2, Except.ok (some obj)) →
      setattr rr sr ur st ru rg ino none none none (some s) now
        = (st2, SetattrReply.error ENOSYS) ∧
      st2.inodeCount = st.inodeCount ∧ st2.inoToId = st.inoToId ∧
      st2.rootEvent = st.rootEvent ∧
      (st2.idToObj = st.idToObj ∨
        ∃ cid o2, st2.idToObj = insertA st.idToObj cid o2)) := by
  refine ⟨fun _ _ _ _ _ => rfl, fun _ _ _ => rfl, fun _ _ _ => rfl,
    fun _ _ _ _ _ _ => rfl, fun _ _ _ _ _ _ => rfl, fun _ _ => rfl,
    fun _ _ _ _ => rfl, fun _ _ _ _ => rfl, fun _ _ _ _ _ _ => rfl,
    fun _ _ _ _ => rfl, fun _ _ _ => rfl, fun _ _ _ => rfl,
    fun _ _ _ _ _ _ _ _ => rfl, fun _ _ _ _ _ _ _ _ _ => rfl,
    fun _ _ _ _ => rfl, fun _ _ _ _ _ _ _ => rfl, fun _ _ _ _ _ _ => rfl,
    fun _ _ _ _ _ => rfl, fun _ _ _ _ _ _ _ _ _ => rfl, fun _ _ _ _ => rfl,
    fun _ _ _ _ => rfl, fun _ _ _ _ => rfl, ?_⟩
  intro rr sr ur st st2 ru rg ino s now obj h
  have hfst : (cache_get rr st ino).1 = st2 := by rw [h]
  have hframe := cache_get_frame rr st ino
  rw [hfst] at hframe
  refine ⟨?_, hframe.1, hframe.2.1, hframe.2.2.1, hframe.2.2.2⟩
  unfold setattr
  rw [h]
  rfl

/-- Witness for C6: on a concrete cached state, `setattr` with only the
size field set replies `ENOSYS` and leaves the state unchanged, and
`mkdir` is a no-op with `ENOSYS`. -/
theorem unimplemented_ops_preserve_state_witness :
    setattr (Except.error () : Except Unit FSObj)
        (Except.error ()) (Except.error ())
        (⟨[(5, 77)],
          [(77, FSObj.file ⟨⟨5, 0, 0, 0, 0, 0, 0, .regularFile, 420, 1, 0, 0, 0, 512, 0⟩,
            "w", []⟩)], 9, 3⟩ : CacheSt Nat)
        0 0 5 none none none (some 0) 7
      = ((⟨[(5, 77)],
          [(77, FSObj.file ⟨⟨5, 0, 0, 0, 0, 0, 0, .regularFile, 420, 1, 0, 0, 0, 512, 0⟩,
            "w", []⟩)], 9, 3⟩ : CacheSt Nat), SetattrReply.error ENOSYS) ∧
    mkdir (⟨[], [], 3, 0⟩ : CacheSt Nat) 1 "d" 493 0 = ((⟨[], [], 3, 0⟩ : CacheSt Nat), ENOSYS) := by
  constructor
  · exact ((unimplemented_ops_preserve_state Nat Unit).2.2.2.2.2.2.2.2.2.2.2.2.2.2.2.2.2.2.2.2.2.2
      (Except.error ()) (Except.error ()) (Except.error ()) _ _ 0 0 5 0 7
      (FSObj.file ⟨⟨5, 0, 0, 0, 0, 0, 0, .regularFile, 420, 1, 0, 0, 0, 512, 0⟩, "w", []⟩)
      rfl).1
  · exact (unimplemented_ops_preserve_state Nat Unit).1 ⟨[], [], 3, 0⟩ 1 "d" 493 0

/-- Counterexample for C6 as stated: `setattr` with only the size field
set on an inode whose object is not yet materialized replies `ENOSYS`
but grows the object table (the preceding cache lookup stores the
retrieved object), so the state is not identical before and after. -/
theorem setattr_truncate_populates_object_table :
    (setattr
        (Except.ok (FSObj.file ⟨⟨5, 0, 0, 0, 0, 0, 0, .regularFile, 420, 1, 0, 0, 0, 512, 0⟩,
          "w", []⟩) : Except Unit FSObj)
        (Except.error ()) (Except.error ())
        (⟨[(5, 77)], [], 9, 3⟩ : CacheSt Nat)
        0 0 5 none none none (some 0) 7).2 = SetattrReply.error ENOSYS ∧
    (setattr
        (Except.ok (FSObj.file ⟨⟨5, 0, 0, 0, 0, 0, 0, .regularFile, 420, 1, 0, 0, 0, 512, 0⟩,
          "w", []⟩) : Except Unit FSObj)
        (Except.error ()) (Except.error ())
        (⟨[(5, 77)], [], 9, 3⟩ : CacheSt Nat)
        0 0 5 none none none (some 0) 7).1.idToObj ≠ [] := by
  constructor <;> decide

end WhenFS
